import Mathlib

/-!
Verification of the FaceShield face-blur pipeline (`blur-faces.js`).

The development shallowly embeds the pixel-level core of the program:
the Gaussian kernel builder, the two-pass separable blur
(`separableGaussianBlur`), the region-box expansion, the elliptical
mask, the feathering stage and the compositing orchestrator.
Pixel buffers are flat RGBA lists (`List ℕ`, one byte per sample, index
`(row*w + col)*4 + channel`), float accumulators are idealised as real
numbers, and the `Uint8ClampedArray` store conversion is embedded
faithfully (clamp to [0,255], round half to even).
-/

namespace FaceShield

/-! ### Kernel builder (`separableGaussianBlur`, lines 37-47)

`sigma = Math.max(1, radius / 2.5)`, `kHalf = Math.ceil(sigma * 3)`,
`kLen = kHalf * 2 + 1`, `kernel[i] = exp(-(x*x) / (2*sigma*sigma))`
with `x = i - kHalf`, then normalised by the total `kSum`. -/

def sigma (radius : ℚ) : ℚ := max 1 (radius / 2.5)

def kHalf (radius : ℚ) : ℕ := (⌈sigma radius * 3⌉).toNat

def kLen (radius : ℚ) : ℕ := kHalf radius * 2 + 1

/-- Unnormalised kernel entry `exp(-(x*x)/(2*sigma*sigma))`, `x = i - kHalf`. -/
noncomputable def kernelRaw (radius : ℚ) (i : ℕ) : ℝ :=
  Real.exp (-(((i : ℝ) - kHalf radius) ^ 2) / (2 * (sigma radius : ℝ) ^ 2))

/-- Accumulated kernel sum `kSum`. -/
noncomputable def kSum (radius : ℚ) : ℝ :=
  ∑ i ∈ Finset.range (kLen radius), kernelRaw radius i

/-- Normalised kernel weight, `kernel[i] /= kSum`. -/
noncomputable def kernel (radius : ℚ) (i : ℕ) : ℝ :=
  kernelRaw radius i / kSum radius

lemma kernelRaw_pos (radius : ℚ) (i : ℕ) : 0 < kernelRaw radius i :=
  Real.exp_pos _

lemma kSum_pos (radius : ℚ) : 0 < kSum radius := by
  apply Finset.sum_pos (fun i _ => kernelRaw_pos radius i)
  exact ⟨0, Finset.mem_range.2 (Nat.succ_le_succ (Nat.zero_le _))⟩

lemma kernel_sum_one (radius : ℚ) :
    ∑ i ∈ Finset.range (kLen radius), kernel radius i = 1 := by
  unfold kernel
  rw [← Finset.sum_div]
  exact div_self (ne_of_gt (kSum_pos radius))

lemma kernel_symm (radius : ℚ) {i : ℕ} (hi : i < kLen radius) :
    kernel radius i = kernel radius (kLen radius - 1 - i) := by
  unfold kernel kernelRaw
  congr 2
  have h2 : i ≤ kHalf radius * 2 := by
    have := hi; unfold kLen at this; omega
  have hcast : ((kLen radius - 1 - i : ℕ) : ℝ) = kHalf radius * 2 - i := by
    have : kLen radius - 1 - i = kHalf radius * 2 - i := by unfold kLen; omega
    rw [this]
    push_cast [h2]
    ring
  rw [hcast]
  ring

lemma kernel_nonneg (radius : ℚ) (i : ℕ) : 0 ≤ kernel radius i :=
  le_of_lt (div_pos (kernelRaw_pos radius i) (kSum_pos radius))

/-! ### Claim C2 : kernel shape, normalisation, symmetry -/

/-- C2: for every radius > 0 the kernel has length `2*halfWidth+1` with
`sigma = max(1, radius/2.5)` and `halfWidth = ceil(3*sigma)`, its weights
sum to 1.0 within 1e-6 after normalisation, and it is symmetric:
`weights[i] = weights[len-1-i]` for every index `i`. -/
theorem kernel_normalized_and_symmetric (radius : ℚ) (hr : 0 < radius) :
    sigma radius = max 1 (radius / 2.5) ∧
    kHalf radius = (⌈3 * sigma radius⌉).toNat ∧
    kLen radius = 2 * kHalf radius + 1 ∧
    |(∑ i ∈ Finset.range (kLen radius), kernel radius i) - 1| ≤ 1e-6 ∧
    ∀ i < kLen radius, kernel radius i = kernel radius (kLen radius - 1 - i) := by
  refine ⟨rfl, by rw [kHalf, mul_comm], by rw [kLen, mul_comm], ?_, ?_⟩
  · rw [kernel_sum_one, sub_self, abs_zero]
    norm_num
  · exact fun i hi => kernel_symm radius hi

/-- Witness for C2 at the program's base blur radius 15. -/
theorem kernel_normalized_and_symmetric_witness :
    (0 : ℚ) < 15 ∧
    (sigma 15 = max 1 (15 / 2.5) ∧
     kHalf 15 = (⌈3 * sigma 15⌉).toNat ∧
     kLen 15 = 2 * kHalf 15 + 1 ∧
     |(∑ i ∈ Finset.range (kLen 15), kernel 15 i) - 1| ≤ 1e-6 ∧
     ∀ i < kLen 15, kernel 15 i = kernel 15 (kLen 15 - 1 - i)) :=
  ⟨by norm_num, kernel_normalized_and_symmetric 15 (by norm_num)⟩

/-! ### Claim C9 : half-width monotonicity -/

lemma sigma_mono {r1 r2 : ℚ} (h : r1 ≤ r2) : sigma r1 ≤ sigma r2 := by
  unfold sigma
  have : r1 / 2.5 ≤ r2 / 2.5 := by
    apply div_le_div_of_nonneg_right h
    norm_num
  exact max_le_max le_rfl this

/-- C9 counterexample: radii 1 < 2 produce the same half-width 3, so the
half-width is not strictly increasing in the radius. -/
theorem kHalf_not_strictly_increasing :
    (1 : ℚ) < 2 ∧ ¬ kHalf 1 < kHalf 2 := by
  constructor
  · norm_num
  · have h1 : kHalf 1 = 3 := by
      unfold kHalf sigma
      norm_num
      rfl
    have h2 : kHalf 2 = 3 := by
      unfold kHalf sigma
      norm_num
      rfl
    omega

/-- C9 amended: the kernel half-width is monotone nondecreasing in the
radius: `r1 ≤ r2` implies `kHalf r1 ≤ kHalf r2` (strict growth fails on
plateaus of the `max`/`ceil`). -/
theorem kHalf_monotone (r1 r2 : ℚ) (h : r1 ≤ r2) : kHalf r1 ≤ kHalf r2 := by
  unfold kHalf
  have hs : sigma r1 * 3 ≤ sigma r2 * 3 := by
    have := sigma_mono h
    linarith
  have hc : ⌈sigma r1 * 3⌉ ≤ ⌈sigma r2 * 3⌉ := Int.ceil_le_ceil hs
  omega

/-- Witness for the amended C9 at radii 1 ≤ 2. -/
theorem kHalf_monotone_witness : (1 : ℚ) ≤ 2 ∧ kHalf 1 ≤ kHalf 2 :=
  ⟨by norm_num, kHalf_monotone 1 2 (by norm_num)⟩

/-! ### The `Uint8ClampedArray` store conversion

A JavaScript `Uint8ClampedArray` store converts a number by clamping to
[0, 255] and rounding half to even (ECMA-262 ToUint8Clamp). -/

noncomputable def toUint8Clamp (x : ℝ) : ℕ :=
  if x ≤ 0 then 0
  else if 255 ≤ x then 255
  else if (⌊x⌋ : ℝ) + 1 / 2 < x then (⌊x⌋ + 1).toNat
  else if x < (⌊x⌋ : ℝ) + 1 / 2 then ⌊x⌋.toNat
  else if 2 ∣ ⌊x⌋ then ⌊x⌋.toNat else (⌊x⌋ + 1).toNat

lemma toUint8Clamp_le (x : ℝ) : toUint8Clamp x ≤ 255 := by
  unfold toUint8Clamp
  by_cases h0 : x ≤ 0
  · simp [h0]
  · rw [if_neg h0]
    by_cases h255 : (255 : ℝ) ≤ x
    · simp [h255]
    · rw [if_neg h255]
      have hf : ⌊x⌋ < 255 := by
        have h1 : (⌊x⌋ : ℝ) ≤ x := Int.floor_le x
        have h2 : (⌊x⌋ : ℝ) < 255 := lt_of_le_of_lt h1 (lt_of_not_le h255)
        exact_mod_cast h2
      split
      · omega
      · split
        · omega
        · split <;> omega

lemma toUint8Clamp_natCast {n : ℕ} (hn : n ≤ 255) : toUint8Clamp (n : ℝ) = n := by
  unfold toUint8Clamp
  rcases Nat.eq_zero_or_pos n with h0 | h0
  · subst h0; norm_num
  · have hpos : ¬ ((n : ℝ) ≤ 0) := by
      push_neg
      exact_mod_cast h0
    rw [if_neg hpos]
    by_cases h255 : (255 : ℝ) ≤ (n : ℝ)
    · have h : (255 : ℕ) ≤ n := by exact_mod_cast h255
      rw [if_pos h255]
      omega
    · rw [if_neg h255]
      have hfl : ⌊(n : ℝ)⌋ = (n : ℤ) := Int.floor_natCast n
      have h1 : ¬ ((⌊(n : ℝ)⌋ : ℝ) + 1 / 2 < (n : ℝ)) := by
        rw [hfl]; push_cast; norm_num
      have h2 : (n : ℝ) < (⌊(n : ℝ)⌋ : ℝ) + 1 / 2 := by
        rw [hfl]; push_cast; norm_num
      rw [if_neg h1, if_pos h2, hfl]
      omega

/-! ### Separable blur engine (`separableGaussianBlur`, lines 49-88) -/

/-- The clamp-to-edge sampling index `Math.min(limit - 1, Math.max(0, v))`
(line 57 for columns, line 75 for rows). -/
def clampIdx (n : ℕ) (v : ℤ) : ℕ := (min ((n : ℤ) - 1) (max 0 v)).toNat

lemma clampIdx_lt {n : ℕ} (hn : 0 < n) (v : ℤ) : clampIdx n v < n := by
  unfold clampIdx
  omega

lemma clampIdx_of_mem {n : ℕ} {v : ℤ} (h0 : 0 ≤ v) (h1 : v < (n : ℤ)) :
    clampIdx n v = v.toNat := by
  unfold clampIdx
  omega

/-- One sample of the horizontal pass (lines 55-66): channel `ch` of pixel
`(row, col)` is the kernel-weighted sum along the row, the sampled column
`col + k` clamped to `[0, w-1]`, read from `src`. -/
noncomputable def horizSample (src : List ℕ) (w : ℕ) (radius : ℚ) (row col ch : ℕ) : ℝ :=
  ∑ k ∈ Finset.range (kLen radius),
    kernel radius k *
      (src.getD ((row * w + clampIdx w ((col : ℤ) + (k : ℤ) - (kHalf radius : ℤ))) * 4 + ch) 0 : ℝ)

/-- One sample of the vertical pass (lines 73-84): the identical weighted sum
along the column, the sampled row clamped to `[0, h-1]`, read from `tmp`. -/
noncomputable def vertSample (tmp : List ℝ) (w h : ℕ) (radius : ℚ) (row col ch : ℕ) : ℝ :=
  ∑ k ∈ Finset.range (kLen radius),
    kernel radius k *
      tmp.getD ((clampIdx h ((row : ℤ) + (k : ℤ) - (kHalf radius : ℤ)) * w + col) * 4 + ch) 0

/-- The three buffers of `separableGaussianBlur`: the source, the
`Float32Array` intermediate `tmp` and the `Uint8ClampedArray` result `out`. -/
structure BlurBuffers where
  src : List ℕ
  tmp : List ℝ
  out : List ℕ

/-- One write of the horizontal pass: `tmp[i] = horizSample` at the pixel and
channel that flat index `i = (row*w + col)*4 + ch` decodes to. -/
noncomputable def horizStep (w : ℕ) (radius : ℚ) (s : BlurBuffers) (i : ℕ) : BlurBuffers :=
  { s with tmp := s.tmp.set i (horizSample s.src w radius (i / 4 / w) (i / 4 % w) (i % 4)) }

/-- One write of the vertical pass: `out[i] = <Uint8Clamped store of vertSample>`. -/
noncomputable def vertStep (w h : ℕ) (radius : ℚ) (s : BlurBuffers) (i : ℕ) : BlurBuffers :=
  { s with out := s.out.set i (toUint8Clamp (vertSample s.tmp w h radius (i / 4 / w) (i / 4 % w) (i % 4))) }

/-- The two passes of `separableGaussianBlur` over the buffer state: `tmp` and
`out` are freshly allocated zero-filled buffers of length `src.length`
(lines 49-50); the horizontal pass writes every sample of `tmp` from `src`,
then the vertical pass writes every sample of `out` from `tmp`.  The flat
indices `0 ≤ i < w*h*4` enumerate exactly the writes `(row*w+col)*4 + ch`
performed by the nested loops (write order does not affect the result since
each index is written once). -/
noncomputable def runBlur (src : List ℕ) (w h : ℕ) (radius : ℚ) : BlurBuffers :=
  let s0 : BlurBuffers := ⟨src, List.replicate src.length 0, List.replicate src.length 0⟩
  let s1 := (List.range (w * h * 4)).foldl (horizStep w radius) s0
  (List.range (w * h * 4)).foldl (vertStep w h radius) s1

/-- The function `separableGaussianBlur` (lines 36-88): the returned `out` buffer. -/
noncomputable def separableGaussianBlur (src : List ℕ) (w h : ℕ) (radius : ℚ) : List ℕ :=
  (runBlur src w h radius).out

/-! Fold bookkeeping: each pass touches only its own target buffer. -/

lemma foldl_horizStep_src (w : ℕ) (radius : ℚ) (is : List ℕ) :
    ∀ s : BlurBuffers, (is.foldl (horizStep w radius) s).src = s.src := by
  induction is with
  | nil => intro s; rfl
  | cons i is ih => intro s; rw [List.foldl_cons, ih]; rfl

lemma foldl_horizStep_out (w : ℕ) (radius : ℚ) (is : List ℕ) :
    ∀ s : BlurBuffers, (is.foldl (horizStep w radius) s).out = s.out := by
  induction is with
  | nil => intro s; rfl
  | cons i is ih => intro s; rw [List.foldl_cons, ih]; rfl

lemma foldl_vertStep_src (w h : ℕ) (radius : ℚ) (is : List ℕ) :
    ∀ s : BlurBuffers, (is.foldl (vertStep w h radius) s).src = s.src := by
  induction is with
  | nil => intro s; rfl
  | cons i is ih => intro s; rw [List.foldl_cons, ih]; rfl

lemma foldl_vertStep_tmp (w h : ℕ) (radius : ℚ) (is : List ℕ) :
    ∀ s : BlurBuffers, (is.foldl (vertStep w h radius) s).tmp = s.tmp := by
  induction is with
  | nil => intro s; rfl
  | cons i is ih => intro s; rw [List.foldl_cons, ih]; rfl

lemma foldl_horizStep_tmp (w : ℕ) (radius : ℚ) (is : List ℕ) :
    ∀ s : BlurBuffers,
      (is.foldl (horizStep w radius) s).tmp =
        is.foldl
          (fun t i => t.set i (horizSample s.src w radius (i / 4 / w) (i / 4 % w) (i % 4)))
          s.tmp := by
  induction is with
  | nil => intro s; rfl
  | cons i is ih => intro s; rw [List.foldl_cons, List.foldl_cons, ih]; rfl

lemma foldl_vertStep_out (w h : ℕ) (radius : ℚ) (is : List ℕ) :
    ∀ s : BlurBuffers,
      (is.foldl (vertStep w h radius) s).out =
        is.foldl
          (fun o i => o.set i (toUint8Clamp (vertSample s.tmp w h radius (i / 4 / w) (i / 4 % w) (i % 4))))
          s.out := by
  induction is with
  | nil => intro s; rfl
  | cons i is ih => intro s; rw [List.foldl_cons, List.foldl_cons, ih]; rfl

/-- A fold of writes `acc[i] = f i` leaves exactly the written entries. -/
lemma foldl_set_getElem? {α : Type} (f : ℕ → α) (is : List ℕ) :
    ∀ (l : List α) (j : ℕ),
      (is.foldl (fun acc i => acc.set i (f i)) l)[j]? =
        if j ∈ is ∧ j < l.length then some (f j) else l[j]? := by
  induction is with
  | nil => intro l j; simp
  | cons i is ih =>
    intro l j
    rw [List.foldl_cons, ih, List.length_set]
    by_cases h1 : j ∈ is
    · by_cases h2 : j < l.length
      · simp [h1, h2, List.mem_cons]
      · have hnone : l[j]? = none := List.getElem?_eq_none (le_of_not_lt h2)
        have hnone' : (l.set i (f i))[j]? = none := by
          apply List.getElem?_eq_none
          rw [List.length_set]
          exact le_of_not_lt h2
        simp [h1, h2, List.mem_cons, hnone, hnone']
    · by_cases h3 : j = i
      · subst h3
        by_cases h2 : j < l.length
        · simp [h1, h2, List.mem_cons, List.getElem?_set_self h2]
        · have hnone : l[j]? = none := List.getElem?_eq_none (le_of_not_lt h2)
          have hnone' : (l.set j (f j))[j]? = none := by
            apply List.getElem?_eq_none
            rw [List.length_set]
            exact le_of_not_lt h2
          simp [h1, h2, List.mem_cons, hnone, hnone']
      · have hne : i ≠ j := fun h => h3 h.symm
        simp [h1, h3, List.mem_cons, List.getElem?_set_ne hne]

lemma foldl_set_length {α : Type} (f : ℕ → α) (is : List ℕ) :
    ∀ l : List α, (is.foldl (fun acc i => acc.set i (f i)) l).length = l.length := by
  induction is with
  | nil => intro l; rfl
  | cons i is ih => intro l; rw [List.foldl_cons, ih, List.length_set]

lemma getElem?_range_map {α : Type} (f : ℕ → α) (n j : ℕ) :
    ((List.range n).map f)[j]? = if j < n then some (f j) else none := by
  by_cases h : j < n
  · rw [List.getElem?_map, List.getElem?_range h, if_pos h]
    rfl
  · rw [if_neg h]
    apply List.getElem?_eq_none
    rw [List.length_map, List.length_range]
    exact le_of_not_lt h

lemma getD_range_map {α : Type} (f : ℕ → α) (d : α) {n j : ℕ} (h : j < n) :
    ((List.range n).map f).getD j d = f j := by
  rw [List.getD_eq_getElem?_getD, getElem?_range_map, if_pos h]
  rfl

/-- The horizontal pass as a buffer: `tmp` after the first pass, one sample
per flat index. -/
noncomputable def horizPass (src : List ℕ) (w h : ℕ) (radius : ℚ) : List ℝ :=
  (List.range (w * h * 4)).map fun i => horizSample src w radius (i / 4 / w) (i / 4 % w) (i % 4)

/-- The whole blur as an index map: the value the nested loops store at each
flat index. -/
noncomputable def blurList (src : List ℕ) (w h : ℕ) (radius : ℚ) : List ℕ :=
  (List.range (w * h * 4)).map fun i =>
    toUint8Clamp (vertSample (horizPass src w h radius) w h radius (i / 4 / w) (i / 4 % w) (i % 4))

lemma runBlur_src (src : List ℕ) (w h : ℕ) (radius : ℚ) :
    (runBlur src w h radius).src = src := by
  unfold runBlur
  rw [foldl_vertStep_src, foldl_horizStep_src]

lemma runBlur_tmp (src : List ℕ) (w h : ℕ) (radius : ℚ) (hlen : src.length = w * h * 4) :
    (runBlur src w h radius).tmp = horizPass src w h radius := by
  unfold runBlur
  rw [foldl_vertStep_tmp, foldl_horizStep_tmp]
  apply List.ext_getElem?
  intro j
  rw [foldl_set_getElem?, horizPass, getElem?_range_map, List.length_replicate]
  by_cases hj : j < w * h * 4
  · rw [if_pos ⟨List.mem_range.2 hj, hlen ▸ hj⟩, if_pos hj]
  · rw [if_neg (fun hc => hj (List.mem_range.1 hc.1)), if_neg hj]
    apply List.getElem?_eq_none
    rw [List.length_replicate]
    omega

lemma separableGaussianBlur_eq_blurList (src : List ℕ) (w h : ℕ) (radius : ℚ)
    (hlen : src.length = w * h * 4) :
    separableGaussianBlur src w h radius = blurList src w h radius := by
  unfold separableGaussianBlur runBlur
  rw [foldl_vertStep_out]
  apply List.ext_getElem?
  intro j
  rw [foldl_set_getElem?, foldl_horizStep_out, List.length_replicate]
  have htmp : ((List.range (w * h * 4)).foldl (horizStep w radius)
      ⟨src, List.replicate src.length 0, List.replicate src.length 0⟩).tmp =
      horizPass src w h radius := by
    have := runBlur_tmp src w h radius hlen
    unfold runBlur at this
    rw [foldl_vertStep_tmp] at this
    exact this
  have hsrc : ((List.range (w * h * 4)).foldl (horizStep w radius)
      ⟨src, List.replicate src.length 0, List.replicate src.length 0⟩).src = src :=
    foldl_horizStep_src _ _ _ _
  rw [htmp, blurList, getElem?_range_map]
  by_cases hj : j < w * h * 4
  · rw [if_pos ⟨List.mem_range.2 hj, hlen ▸ hj⟩, if_pos hj]
  · rw [if_neg (fun hc => hj (List.mem_range.1 hc.1)), if_neg hj]
    apply List.getElem?_eq_none
    rw [List.length_replicate]
    omega

/-! ### Configuration constants (lines 22-24) -/

def BLUR_RADIUS : ℚ := 15

def FEATHER_RADIUS : ℚ := 34

/-! ### Claim C8 : the blur mutates nothing and allocates a fresh result -/

/-- C8: the separable blur never mutates its source buffer — after both
passes the state's `src` is the buffer that was passed in — and the result
is a newly allocated buffer of identical dimensions: its length is
`src.length`, hence `w*h*4` for a properly dimensioned source. -/
theorem blur_no_mutation (src : List ℕ) (w h : ℕ) (radius : ℚ) :
    (runBlur src w h radius).src = src ∧
    (separableGaussianBlur src w h radius).length = src.length ∧
    (src.length = w * h * 4 → (separableGaussianBlur src w h radius).length = w * h * 4) := by
  have hlen : (separableGaussianBlur src w h radius).length = src.length := by
    unfold separableGaussianBlur runBlur
    rw [foldl_vertStep_out, foldl_set_length, foldl_horizStep_out, List.length_replicate]
  exact ⟨runBlur_src src w h radius, hlen, fun h => h ▸ hlen⟩

/-- Witness for C8 on a 1×1 image at the base radius. -/
theorem blur_no_mutation_witness :
    ([0, 0, 0, 0] : List ℕ).length = 1 * 1 * 4 ∧
    (runBlur [0, 0, 0, 0] 1 1 15).src = [0, 0, 0, 0] ∧
    (separableGaussianBlur [0, 0, 0, 0] 1 1 15).length = 1 * 1 * 4 :=
  ⟨rfl, (blur_no_mutation [0, 0, 0, 0] 1 1 15).1,
    (blur_no_mutation [0, 0, 0, 0] 1 1 15).2.2 rfl⟩

/-! ### Claim C3 : uniform images are fixed points of the blur -/

lemma pix_decode {w a b : ℕ} (hb : b < w) :
    (a * w + b) / w = a ∧ (a * w + b) % w = b := by
  have hw : 0 < w := lt_of_le_of_lt (Nat.zero_le b) hb
  constructor
  · rw [Nat.add_comm, Nat.add_mul_div_right _ _ hw, Nat.div_eq_of_lt hb, Nat.zero_add]
  · rw [Nat.add_comm, Nat.add_mul_mod_self_right, Nat.mod_eq_of_lt hb]

/-- A `w*h` RGBA buffer in which every pixel has the same color
`(c 0, c 1, c 2, c 3)`. -/
def uniformBuf (w h : ℕ) (c : ℕ → ℕ) : List ℕ :=
  (List.range (w * h * 4)).map fun i => c (i % 4)

lemma uniformBuf_getD {w h : ℕ} {c : ℕ → ℕ} {i : ℕ} (hi : i < w * h * 4) :
    (uniformBuf w h c).getD i 0 = c (i % 4) :=
  getD_range_map _ _ hi

lemma uniformBuf_getElem? (w h : ℕ) (c : ℕ → ℕ) (j : ℕ) :
    (uniformBuf w h c)[j]? = if j < w * h * 4 then some (c (j % 4)) else none :=
  getElem?_range_map _ _ _

lemma horizSample_uniform (w h : ℕ) (c : ℕ → ℕ) (radius : ℚ)
    {row col ch : ℕ} (hrow : row < h) (hcol : col < w) (hch : ch < 4) :
    horizSample (uniformBuf w h c) w radius row col ch = c ch := by
  unfold horizSample
  have hw : 0 < w := lt_of_le_of_lt (Nat.zero_le _) hcol
  have hterm : ∀ k ∈ Finset.range (kLen radius),
      kernel radius k *
        ((uniformBuf w h c).getD
          ((row * w + clampIdx w ((col : ℤ) + (k : ℤ) - (kHalf radius : ℤ))) * 4 + ch) 0 : ℝ) =
      kernel radius k * (c ch : ℝ) := by
    intro k _
    set sc := clampIdx w ((col : ℤ) + (k : ℤ) - (kHalf radius : ℤ)) with hscdef
    have hsc : sc < w := clampIdx_lt hw _
    have hpix : row * w + sc < w * h := by
      have h1 : (row + 1) * w = row * w + w := by ring
      have h2 : (row + 1) * w ≤ h * w := Nat.mul_le_mul_right w hrow
      have h3 : h * w = w * h := Nat.mul_comm h w
      omega
    have hidx : (row * w + sc) * 4 + ch < w * h * 4 := by omega
    rw [uniformBuf_getD hidx]
    have hmod : ((row * w + sc) * 4 + ch) % 4 = ch := by omega
    rw [hmod]
  rw [Finset.sum_congr rfl hterm, ← Finset.sum_mul, kernel_sum_one, one_mul]

lemma vertSample_uniform (w h : ℕ) (c : ℕ → ℕ) (radius : ℚ)
    {row col ch : ℕ} (hrow : row < h) (hcol : col < w) (hch : ch < 4) :
    vertSample (horizPass (uniformBuf w h c) w h radius) w h radius row col ch = c ch := by
  unfold vertSample
  have hh : 0 < h := lt_of_le_of_lt (Nat.zero_le _) hrow
  have hw : 0 < w := lt_of_le_of_lt (Nat.zero_le _) hcol
  have hterm : ∀ k ∈ Finset.range (kLen radius),
      kernel radius k *
        (horizPass (uniformBuf w h c) w h radius).getD
          ((clampIdx h ((row : ℤ) + (k : ℤ) - (kHalf radius : ℤ)) * w + col) * 4 + ch) 0 =
      kernel radius k * (c ch : ℝ) := by
    intro k _
    set sr := clampIdx h ((row : ℤ) + (k : ℤ) - (kHalf radius : ℤ)) with hsrdef
    have hsr : sr < h := clampIdx_lt hh _
    have hpix : sr * w + col < w * h := by
      have h1 : (sr + 1) * w = sr * w + w := by ring
      have h2 : (sr + 1) * w ≤ h * w := Nat.mul_le_mul_right w hsr
      have h3 : h * w = w * h := Nat.mul_comm h w
      omega
    have hidx : (sr * w + col) * 4 + ch < w * h * 4 := by omega
    unfold horizPass
    rw [getD_range_map _ _ hidx]
    have hdiv4 : ((sr * w + col) * 4 + ch) / 4 = sr * w + col := by omega
    have hmod4 : ((sr * w + col) * 4 + ch) % 4 = ch := by omega
    rw [hdiv4, hmod4, (pix_decode hcol).1, (pix_decode hcol).2]
    rw [horizSample_uniform w h c radius hsr hcol hch]
  rw [Finset.sum_congr rfl hterm, ← Finset.sum_mul, kernel_sum_one, one_mul]

lemma blur_uniform (w h : ℕ) (radius : ℚ) (c : ℕ → ℕ) (hc : ∀ j < 4, c j ≤ 255) :
    separableGaussianBlur (uniformBuf w h c) w h radius = uniformBuf w h c := by
  have hlen : (uniformBuf w h c).length = w * h * 4 := by
    unfold uniformBuf
    rw [List.length_map, List.length_range]
  rw [separableGaussianBlur_eq_blurList _ _ _ _ hlen]
  apply List.ext_getElem?
  intro j
  unfold blurList
  rw [getElem?_range_map, uniformBuf_getElem?]
  by_cases hj : j < w * h * 4
  · rw [if_pos hj, if_pos hj]
    have hw : 0 < w := by
      rcases Nat.eq_zero_or_pos w with h0 | h0
      · subst h0; omega
      · exact h0
    have hh : 0 < h := by
      rcases Nat.eq_zero_or_pos h with h0 | h0
      · subst h0; omega
      · exact h0
    have hpix : j / 4 < w * h := by
      rw [Nat.div_lt_iff_lt_mul (by norm_num : 0 < 4)]
      omega
    have hrow : j / 4 / w < h := by
      rw [Nat.div_lt_iff_lt_mul hw, Nat.mul_comm h w]
      exact hpix
    have hcol : j / 4 % w < w := Nat.mod_lt _ hw
    have hch : j % 4 < 4 := Nat.mod_lt _ (by norm_num)
    rw [vertSample_uniform w h c radius hrow hcol hch]
    rw [toUint8Clamp_natCast (hc _ hch)]
  · rw [if_neg hj, if_neg hj]

/-- C3: blurring a uniform-color image of any size `w*h` with any radius
returns the buffer unchanged: every pixel keeps the same RGBA color. -/
theorem blur_uniform_color (w h : ℕ) (radius : ℚ) (c : ℕ → ℕ)
    (hc : ∀ j < 4, c j ≤ 255) :
    separableGaussianBlur (uniformBuf w h c) w h radius = uniformBuf w h c :=
  blur_uniform w h radius c hc

/-- The color (10, 20, 30, 255) used by the C3 witness. -/
def witnessColor : ℕ → ℕ :=
  fun j => if j = 0 then 10 else if j = 1 then 20 else if j = 2 then 30 else 255

/-- Witness for C3: a 2×3 image of color (10, 20, 30, 255) at radius 15. -/
theorem blur_uniform_color_witness :
    (∀ j < 4, witnessColor j ≤ 255) ∧
    separableGaussianBlur (uniformBuf 2 3 witnessColor) 2 3 15 = uniformBuf 2 3 witnessColor :=
  ⟨fun j _ => by unfold witnessColor; split_ifs <;> omega,
    blur_uniform_color 2 3 15 witnessColor
      (fun j _ => by unfold witnessColor; split_ifs <;> omega)⟩

/-! ### Claim C7 : feathering stays in range; distinct values need not grow -/

/-- The alpha-channel (opacity) samples of a `w*h` RGBA buffer. -/
def opacities (buf : List ℕ) (w h : ℕ) : List ℕ :=
  (List.range (w * h)).map fun p => buf.getD (p * 4 + 3) 0

/-- The number of distinct opacity values present in a `w*h` buffer. -/
def distinctCount (buf : List ℕ) (w h : ℕ) : ℕ :=
  (opacities buf w h).dedup.length

/-- A mask whose opacity values are only 0 and 255, with both present. -/
def hardEdged (buf : List ℕ) (w h : ℕ) : Prop :=
  (∀ v ∈ opacities buf w h, v = 0 ∨ v = 255) ∧
    0 ∈ opacities buf w h ∧ 255 ∈ opacities buf w h

/-- A 2×1 hard-edged mask: a fully transparent pixel next to a fully opaque
white pixel. -/
def hardMask2 : List ℕ := [0, 0, 0, 0, 255, 255, 255, 255]

/-- C7 counterexample: `hardMask2` is hard-edged, yet feathering it through
the separable blur at the feather radius cannot strictly increase the number
of distinct opacity values: the feathered 2×1 mask still has only two alpha
samples, so at most 2 distinct values — the unfeathered count. -/
theorem feather_distinct_counterexample :
    hardEdged hardMask2 2 1 ∧
    ¬ distinctCount hardMask2 2 1 <
        distinctCount (separableGaussianBlur hardMask2 2 1 FEATHER_RADIUS) 2 1 := by
  constructor
  · exact ⟨by decide, by decide, by decide⟩
  · intro hlt
    have h1 : distinctCount hardMask2 2 1 = 2 := by decide
    have h2 : distinctCount (separableGaussianBlur hardMask2 2 1 FEATHER_RADIUS) 2 1 ≤ 2 := by
      unfold distinctCount
      have hsub := List.Sublist.length_le
        (List.dedup_sublist (opacities (separableGaussianBlur hardMask2 2 1 FEATHER_RADIUS) 2 1))
      have hlen2 : (opacities (separableGaussianBlur hardMask2 2 1 FEATHER_RADIUS) 2 1).length = 2 := by
        unfold opacities
        rw [List.length_map, List.length_range]
      omega
    omega

/-- C7 amended: every opacity value the feathering stage produces lies in
[0, 255] (samples are naturals, and every stored sample passed through the
`Uint8ClampedArray` conversion); the strict growth in the number of distinct
opacity values does not hold for every hard-edged mask. -/
theorem feather_output_in_range (mask : List ℕ) (w h : ℕ) (radius : ℚ) (j : ℕ) :
    (separableGaussianBlur mask w h radius).getD j 0 ≤ 255 := by
  unfold separableGaussianBlur runBlur
  rw [List.getD_eq_getElem?_getD, foldl_vertStep_out, foldl_set_getElem?, foldl_horizStep_out]
  by_cases hcond : j ∈ List.range (w * h * 4) ∧
      j < (List.replicate mask.length (0 : ℕ)).length
  · rw [if_pos hcond]
    exact toUint8Clamp_le _
  · rw [if_neg hcond, List.getElem?_replicate]
    split
    · simp
    · simp

/-! ### Claim C4 : two clamped 1-D passes, channels independent -/

/-- Channel plane `ch` of an RGBA buffer, one real sample per pixel. -/
noncomputable def channelPlane (buf : List ℕ) (w h ch : ℕ) : List ℝ :=
  (List.range (w * h)).map fun p => (buf.getD (p * 4 + ch) 0 : ℝ)

/-- One-dimensional convolution along a row of a single-channel plane, sampled columns
clamped to `[0, w-1]`. -/
noncomputable def rowConvAt (plane : List ℝ) (w : ℕ) (radius : ℚ) (row col : ℕ) : ℝ :=
  ∑ k ∈ Finset.range (kLen radius),
    kernel radius k *
      plane.getD (row * w + clampIdx w ((col : ℤ) + (k : ℤ) - (kHalf radius : ℤ))) 0

/-- The full horizontal pass on a single-channel plane. -/
noncomputable def rowConv (plane : List ℝ) (w h : ℕ) (radius : ℚ) : List ℝ :=
  (List.range (w * h)).map fun p => rowConvAt plane w radius (p / w) (p % w)

/-- The identical 1-D convolution along a column, sampled rows clamped to
`[0, h-1]`. -/
noncomputable def colConvAt (plane : List ℝ) (w h : ℕ) (radius : ℚ) (row col : ℕ) : ℝ :=
  ∑ k ∈ Finset.range (kLen radius),
    kernel radius k *
      plane.getD (clampIdx h ((row : ℤ) + (k : ℤ) - (kHalf radius : ℤ)) * w + col) 0

lemma rowConvAt_eq_horizSample (src : List ℕ) (w h : ℕ) (radius : ℚ)
    {row col ch : ℕ} (hrow : row < h) (hcol : col < w) :
    rowConvAt (channelPlane src w h ch) w radius row col =
      horizSample src w radius row col ch := by
  unfold rowConvAt horizSample
  apply Finset.sum_congr rfl
  intro k _
  congr 1
  set sc := clampIdx w ((col : ℤ) + (k : ℤ) - (kHalf radius : ℤ)) with hscdef
  have hw : 0 < w := lt_of_le_of_lt (Nat.zero_le _) hcol
  have hsc : sc < w := clampIdx_lt hw _
  have hpix : row * w + sc < w * h := by
    have h1 : (row + 1) * w = row * w + w := by ring
    have h2 : (row + 1) * w ≤ h * w := Nat.mul_le_mul_right w hrow
    have h3 : h * w = w * h := Nat.mul_comm h w
    omega
  unfold channelPlane
  rw [getD_range_map _ _ hpix]

lemma vertSample_eq_colConv (src : List ℕ) (w h : ℕ) (radius : ℚ)
    {row col ch : ℕ} (hrow : row < h) (hcol : col < w) (hch : ch < 4) :
    vertSample (horizPass src w h radius) w h radius row col ch =
      colConvAt (rowConv (channelPlane src w h ch) w h radius) w h radius row col := by
  unfold vertSample colConvAt
  apply Finset.sum_congr rfl
  intro k _
  congr 1
  set sr := clampIdx h ((row : ℤ) + (k : ℤ) - (kHalf radius : ℤ)) with hsrdef
  have hh : 0 < h := lt_of_le_of_lt (Nat.zero_le _) hrow
  have hw : 0 < w := lt_of_le_of_lt (Nat.zero_le _) hcol
  have hsr : sr < h := clampIdx_lt hh _
  have hpix : sr * w + col < w * h := by
    have h1 : (sr + 1) * w = sr * w + w := by ring
    have h2 : (sr + 1) * w ≤ h * w := Nat.mul_le_mul_right w hsr
    have h3 : h * w = w * h := Nat.mul_comm h w
    omega
  have hidx : (sr * w + col) * 4 + ch < w * h * 4 := by omega
  unfold horizPass rowConv
  rw [getD_range_map _ _ hidx, getD_range_map _ _ hpix]
  have hdiv4 : ((sr * w + col) * 4 + ch) / 4 = sr * w + col := by omega
  have hmod4 : ((sr * w + col) * 4 + ch) % 4 = ch := by omega
  rw [hdiv4, hmod4, (pix_decode hcol).1, (pix_decode hcol).2]
  exact (rowConvAt_eq_horizSample src w h radius hsr hcol).symm

/-- C4: every sample of the blurred buffer is the clamped store of the
single-channel column convolution applied to the row convolution of that
channel's plane — so the horizontal pass samples columns clamped to
`[0, w-1]`, the vertical pass applies the identical convolution to the
horizontal output with rows clamped to `[0, h-1]`, and the four channels are
convolved independently and identically.  In range, the clamp is the
identity, and it always yields a valid index. -/
theorem blur_channelwise (src : List ℕ) (w h : ℕ) (radius : ℚ) (row col ch : ℕ)
    (hlen : src.length = w * h * 4) (hrow : row < h) (hcol : col < w) (hch : ch < 4) :
    (separableGaussianBlur src w h radius).getD ((row * w + col) * 4 + ch) 0 =
      toUint8Clamp (colConvAt (rowConv (channelPlane src w h ch) w h radius) w h radius row col) ∧
    (∀ v : ℤ, 0 ≤ v → v < (w : ℤ) → clampIdx w v = v.toNat) ∧
    (∀ v : ℤ, clampIdx w v < w) := by
  refine ⟨?_, fun v h0 h1 => clampIdx_of_mem h0 h1,
    fun v => clampIdx_lt (lt_of_le_of_lt (Nat.zero_le _) hcol) v⟩
  rw [separableGaussianBlur_eq_blurList _ _ _ _ hlen]
  unfold blurList
  have hpix : row * w + col < w * h := by
    have h1 : (row + 1) * w = row * w + w := by ring
    have h2 : (row + 1) * w ≤ h * w := Nat.mul_le_mul_right w hrow
    have h3 : h * w = w * h := Nat.mul_comm h w
    omega
  have hidx : (row * w + col) * 4 + ch < w * h * 4 := by omega
  rw [getD_range_map _ _ hidx]
  have hdiv4 : ((row * w + col) * 4 + ch) / 4 = row * w + col := by omega
  have hmod4 : ((row * w + col) * 4 + ch) % 4 = ch := by omega
  rw [hdiv4, hmod4, (pix_decode hcol).1, (pix_decode hcol).2]
  congr 1
  exact vertSample_eq_colConv src w h radius hrow hcol hch

/-- Witness for C4 on a 1×1 image, channel 0, at radius 15. -/
theorem blur_channelwise_witness :
    ([1, 2, 3, 255] : List ℕ).length = 1 * 1 * 4 ∧ (0 : ℕ) < 1 ∧ (0 : ℕ) < 4 ∧
    ((separableGaussianBlur [1, 2, 3, 255] 1 1 15).getD ((0 * 1 + 0) * 4 + 0) 0 =
        toUint8Clamp
          (colConvAt (rowConv (channelPlane [1, 2, 3, 255] 1 1 0) 1 1 15) 1 1 15 0 0) ∧
      (∀ v : ℤ, 0 ≤ v → v < (1 : ℤ) → clampIdx 1 v = v.toNat) ∧
      (∀ v : ℤ, clampIdx 1 v < 1)) :=
  ⟨rfl, by norm_num, by norm_num,
    blur_channelwise [1, 2, 3, 255] 1 1 15 0 0 0 rfl (by norm_num) (by norm_num) (by norm_num)⟩

/-! ### Region mask builder (`blurFaces`, lines 153-178) -/

/-- A detector bounding box `det.detection.box` (line 154). -/
structure Box where
  x : ℚ
  y : ℚ
  width : ℚ
  height : ℚ

/-- The expanded box `(fx, fy, fw, fh)`. -/
structure ExpandedBox where
  fx : ℚ
  fy : ℚ
  fw : ℚ
  fh : ℚ

/-- Bounding-box expansion (lines 157-162): `padX = box.width * 0.2`,
`padY = box.height * 0.2`, `fx = max(0, box.x - padX)`,
`fy = max(0, box.y - padY * 1.5)`, `fw = min(w - fx, box.width + padX * 2)`,
`fh = min(h - fy, box.height + padY * 2.5)`. -/
def expandBox (box : Box) (w h : ℚ) : ExpandedBox :=
  let padX := box.width * 0.2
  let padY := box.height * 0.2
  let fx := max 0 (box.x - padX)
  let fy := max 0 (box.y - padY * 1.5)
  { fx := fx
    fy := fy
    fw := min (w - fx) (box.width + padX * 2)
    fh := min (h - fy) (box.height + padY * 2.5) }

/-- Modelled from the spec: the mask is "an axis-aligned ellipse inscribed in
that expanded box (center (fx+fw/2, fy+fh/2), radii fw/2 and fh/2)".  The
rasterisation itself, `maskCtx.ellipse`/`fill` (lines 169-171), is node-canvas
library code and not part of this repository; membership is the standard
cleared-denominator form of `((px-cx)/rx)^2 + ((py-cy)/ry)^2 ≤ 1`. -/
def insideEllipse (b : ExpandedBox) (px py : ℚ) : Prop :=
  (px - (b.fx + b.fw / 2)) ^ 2 * (b.fh / 2) ^ 2 +
      (py - (b.fy + b.fh / 2)) ^ 2 * (b.fw / 2) ^ 2 ≤
    (b.fw / 2) ^ 2 * (b.fh / 2) ^ 2

instance insideEllipse_decidable (b : ExpandedBox) (px py : ℚ) :
    Decidable (insideEllipse b px py) := by
  unfold insideEllipse
  infer_instance

/-- Modelled from the spec: the mask buffer — a cleared canvas (all samples
0, line 167) with the ellipse filled in white `#fff` (all four RGBA samples
255, lines 168-171).  Each pixel is sampled at its center. -/
def ellipseMask (box : Box) (w h : ℕ) : List ℕ :=
  (List.range (w * h * 4)).map fun i =>
    if insideEllipse (expandBox box (w : ℚ) (h : ℚ))
        (((i / 4 % w : ℕ) : ℚ) + 1 / 2) (((i / 4 / w : ℕ) : ℚ) + 1 / 2)
    then 255 else 0

/-- Feathering stage (lines 174-175): the mask passed through
`separableGaussianBlur` at `FEATHER_RADIUS`. -/
noncomputable def featheredMask (box : Box) (w h : ℕ) : List ℕ :=
  separableGaussianBlur (ellipseMask box w h) w h FEATHER_RADIUS

/-- Modelled from the spec: the compositor's per-pixel rule "output =
lerp(output_so_far, blurred, mask_alpha/255)".  In the source this is the
canvas pair destination-in (lines 184-185, keep the blurred layer at the
mask's alpha) and source-over (line 189, draw the patch over the
accumulator), both node-canvas library code; the store back into the canvas
quantises each sample to a byte. -/
noncomputable def compositeRegion (w h : ℕ) (acc blurred mask : List ℕ) : List ℕ :=
  (List.range (w * h * 4)).map fun i =>
    toUint8Clamp ((acc.getD i 0 : ℝ) +
      ((blurred.getD i 0 : ℝ) - (acc.getD i 0 : ℝ)) * (mask.getD (i / 4 * 4 + 3) 0 : ℝ) / 255)

/-- Pipeline orchestrator (lines 135-192): an empty detection list returns
the decoded image unmodified (lines 135-142); otherwise the image is blurred
once at `BLUR_RADIUS` (line 149) and each region is composited, in detector
order, over the accumulating output canvas (lines 153-192). -/
noncomputable def blurFacesCore (img : List ℕ) (w h : ℕ) (dets : List Box) : List ℕ :=
  if dets.length = 0 then img
  else
    dets.foldl
      (fun acc box =>
        compositeRegion w h acc (separableGaussianBlur img w h BLUR_RADIUS)
          (featheredMask box w h))
      img

/-! ### Claim C6 : empty detection list short-circuits -/

/-- C6: with zero detected regions the pipeline output is byte-identical to
the decoded input buffer — the base blur is never applied. -/
theorem empty_detections_passthrough (img : List ℕ) (w h : ℕ) :
    blurFacesCore img w h [] = img := by
  unfold blurFacesCore
  simp

/-! ### Claim C1 : per-pixel lerp compositing, accumulated in order -/

/-- C1: with at least one region, the output is the left fold of the
compositing step over the regions in detector order, starting from the
decoded image — so every later region blends over the earlier result, not
over the untouched original — and each composited sample is
`lerp(output_so_far, blurred, mask_alpha / 255)` (quantised to a byte),
where `blurred` is the once-computed fully-blurred image and `mask_alpha`
the feathered mask's opacity at that pixel. -/
theorem compositor_lerp_fold (img : List ℕ) (w h : ℕ) (d : Box) (ds : List Box) :
    blurFacesCore img w h (d :: ds) =
      ds.foldl
        (fun acc box =>
          compositeRegion w h acc (separableGaussianBlur img w h BLUR_RADIUS)
            (featheredMask box w h))
        (compositeRegion w h img (separableGaussianBlur img w h BLUR_RADIUS)
          (featheredMask d w h)) ∧
    ∀ (acc blurred mask : List ℕ) (i : ℕ), i < w * h * 4 →
      (compositeRegion w h acc blurred mask).getD i 0 =
        toUint8Clamp ((acc.getD i 0 : ℝ) +
          ((blurred.getD i 0 : ℝ) - (acc.getD i 0 : ℝ)) *
            (mask.getD (i / 4 * 4 + 3) 0 : ℝ) / 255) := by
  constructor
  · unfold blurFacesCore
    rw [if_neg (by simp)]
    rw [List.foldl_cons]
  · intro acc blurred mask i hi
    unfold compositeRegion
    rw [getD_range_map _ _ hi]

/-- Witness for C1 on a 1×1 image with one region. -/
theorem compositor_lerp_fold_witness :
    (blurFacesCore [1, 2, 3, 255] 1 1 [⟨0, 0, 1, 1⟩] =
      ([] : List Box).foldl
        (fun acc box =>
          compositeRegion 1 1 acc (separableGaussianBlur [1, 2, 3, 255] 1 1 BLUR_RADIUS)
            (featheredMask box 1 1))
        (compositeRegion 1 1 [1, 2, 3, 255] (separableGaussianBlur [1, 2, 3, 255] 1 1 BLUR_RADIUS)
          (featheredMask ⟨0, 0, 1, 1⟩ 1 1))) ∧
    0 < 1 * 1 * 4 ∧
    (compositeRegion 1 1 [7] [9] [0, 0, 0, 128]).getD 0 0 =
      toUint8Clamp ((([7] : List ℕ).getD 0 0 : ℝ) +
        ((([9] : List ℕ).getD 0 0 : ℝ) - (([7] : List ℕ).getD 0 0 : ℝ)) *
          (([0, 0, 0, 128] : List ℕ).getD (0 / 4 * 4 + 3) 0 : ℝ) / 255) :=
  ⟨(compositor_lerp_fold [1, 2, 3, 255] 1 1 ⟨0, 0, 1, 1⟩ []).1,
    by norm_num,
    (compositor_lerp_fold [1, 2, 3, 255] 1 1 ⟨0, 0, 1, 1⟩ []).2 [7] [9] [0, 0, 0, 128] 0
      (by norm_num)⟩

/-! ### Claim C5 : the exact expansion formulas and the mask shape -/

/-- C5: the expanded box is computed exactly as `fx = max(0, x - 0.2*width)`,
`fy = max(0, y - 0.2*height*1.5)`, `fw = min(w - fx, width + 0.2*width*2)`,
`fh = min(h - fy, height + 0.2*height*2.5)`, and the mask holds full opacity
(all samples 255) exactly at the pixels inside the axis-aligned ellipse
inscribed in that box, 0 everywhere else. -/
theorem region_mask_construction (box : Box) (w h : ℚ) :
    (expandBox box w h).fx = max 0 (box.x - box.width * 0.2) ∧
    (expandBox box w h).fy = max 0 (box.y - box.height * 0.2 * 1.5) ∧
    (expandBox box w h).fw =
      min (w - (expandBox box w h).fx) (box.width + box.width * 0.2 * 2) ∧
    (expandBox box w h).fh =
      min (h - (expandBox box w h).fy) (box.height + box.height * 0.2 * 2.5) ∧
    ∀ (cw chh i : ℕ), i < cw * chh * 4 →
      (ellipseMask box cw chh).getD i 0 =
        if insideEllipse (expandBox box (cw : ℚ) (chh : ℚ))
            (((i / 4 % cw : ℕ) : ℚ) + 1 / 2) (((i / 4 / cw : ℕ) : ℚ) + 1 / 2)
        then 255 else 0 := by
  refine ⟨rfl, rfl, rfl, rfl, ?_⟩
  intro cw chh i hi
  unfold ellipseMask
  rw [getD_range_map _ _ hi]

/-- Witness for C5: the box (10, 10, 20, 20) on a 100×100 canvas, mask pixel 0. -/
theorem region_mask_construction_witness :
    ((expandBox ⟨10, 10, 20, 20⟩ 100 100).fx = max 0 (10 - 20 * 0.2) ∧
      (expandBox ⟨10, 10, 20, 20⟩ 100 100).fy = max 0 (10 - 20 * 0.2 * 1.5) ∧
      (expandBox ⟨10, 10, 20, 20⟩ 100 100).fw =
        min (100 - (expandBox ⟨10, 10, 20, 20⟩ 100 100).fx) (20 + 20 * 0.2 * 2) ∧
      (expandBox ⟨10, 10, 20, 20⟩ 100 100).fh =
        min (100 - (expandBox ⟨10, 10, 20, 20⟩ 100 100).fy) (20 + 20 * 0.2 * 2.5)) ∧
    0 < 1 * 1 * 4 ∧
    (ellipseMask ⟨10, 10, 20, 20⟩ 1 1).getD 0 0 =
      if insideEllipse (expandBox ⟨10, 10, 20, 20⟩ ((1 : ℕ) : ℚ) ((1 : ℕ) : ℚ))
          (((0 / 4 % 1 : ℕ) : ℚ) + 1 / 2) (((0 / 4 / 1 : ℕ) : ℚ) + 1 / 2)
      then 255 else 0 :=
  ⟨⟨(region_mask_construction ⟨10, 10, 20, 20⟩ 100 100).1,
      (region_mask_construction ⟨10, 10, 20, 20⟩ 100 100).2.1,
      (region_mask_construction ⟨10, 10, 20, 20⟩ 100 100).2.2.1,
      (region_mask_construction ⟨10, 10, 20, 20⟩ 100 100).2.2.2.1⟩,
    by norm_num,
    (region_mask_construction ⟨10, 10, 20, 20⟩ 100 100).2.2.2.2 1 1 0 (by norm_num)⟩

/-! ### Claim C10 : the expanded box stays inside the canvas -/

lemma abs_bound_of_sq_le {a r : ℚ} (hr : 0 < r) (h : a ^ 2 ≤ r ^ 2) :
    -r ≤ a ∧ a ≤ r := by
  constructor
  · nlinarith [sq_nonneg (a + r), mul_pos hr hr]
  · nlinarith [sq_nonneg (a - r), mul_pos hr hr]

/-- C10: the expanded box satisfies `fx ≥ 0`, `fy ≥ 0`, `fx + fw ≤ w`,
`fy + fh ≤ h`; consequently (when its radii are positive, i.e. the ellipse is
non-degenerate) every point of the inscribed ellipse stays within the canvas
`[0, w] × [0, h]`. -/
theorem expanded_box_within_canvas (box : Box) (w h : ℚ) :
    0 ≤ (expandBox box w h).fx ∧
    0 ≤ (expandBox box w h).fy ∧
    (expandBox box w h).fx + (expandBox box w h).fw ≤ w ∧
    (expandBox box w h).fy + (expandBox box w h).fh ≤ h ∧
    (0 < (expandBox box w h).fw → 0 < (expandBox box w h).fh →
      ∀ px py : ℚ, insideEllipse (expandBox box w h) px py →
        0 ≤ px ∧ px ≤ w ∧ 0 ≤ py ∧ py ≤ h) := by
  set b := expandBox box w h with hb
  have hfx : 0 ≤ b.fx := by
    rw [hb]; unfold expandBox; exact le_max_left 0 _
  have hfy : 0 ≤ b.fy := by
    rw [hb]; unfold expandBox; exact le_max_left 0 _
  have hfw : b.fx + b.fw ≤ w := by
    have : b.fw ≤ w - b.fx := by
      rw [hb]; unfold expandBox; exact min_le_left _ _
    linarith
  have hfh : b.fy + b.fh ≤ h := by
    have : b.fh ≤ h - b.fy := by
      rw [hb]; unfold expandBox; exact min_le_left _ _
    linarith
  refine ⟨hfx, hfy, hfw, hfh, ?_⟩
  intro hw0 hh0 px py hin
  unfold insideEllipse at hin
  have hrx : 0 < b.fw / 2 := by linarith
  have hry : 0 < b.fh / 2 := by linarith
  have hxsq : (px - (b.fx + b.fw / 2)) ^ 2 ≤ (b.fw / 2) ^ 2 := by
    have hy2 : 0 ≤ (py - (b.fy + b.fh / 2)) ^ 2 * (b.fw / 2) ^ 2 :=
      mul_nonneg (sq_nonneg _) (sq_nonneg _)
    have h1 : (px - (b.fx + b.fw / 2)) ^ 2 * (b.fh / 2) ^ 2 ≤
        (b.fw / 2) ^ 2 * (b.fh / 2) ^ 2 := by linarith
    exact le_of_mul_le_mul_right h1 (by positivity)
  have hysq : (py - (b.fy + b.fh / 2)) ^ 2 ≤ (b.fh / 2) ^ 2 := by
    have hx2 : 0 ≤ (px - (b.fx + b.fw / 2)) ^ 2 * (b.fh / 2) ^ 2 :=
      mul_nonneg (sq_nonneg _) (sq_nonneg _)
    have h1 : (py - (b.fy + b.fh / 2)) ^ 2 * (b.fw / 2) ^ 2 ≤
        (b.fh / 2) ^ 2 * (b.fw / 2) ^ 2 := by linarith
    exact le_of_mul_le_mul_right h1 (by positivity)
  obtain ⟨hx1, hx2⟩ := abs_bound_of_sq_le hrx hxsq
  obtain ⟨hy1, hy2⟩ := abs_bound_of_sq_le hry hysq
  exact ⟨by linarith, by linarith, by linarith, by linarith⟩

/-- Witness for C10: the box (10, 10, 20, 20) on a 100×100 canvas, with the
ellipse center as the contained point. -/
theorem expanded_box_within_canvas_witness :
    0 < (expandBox ⟨10, 10, 20, 20⟩ 100 100).fw ∧
    0 < (expandBox ⟨10, 10, 20, 20⟩ 100 100).fh ∧
    insideEllipse (expandBox ⟨10, 10, 20, 20⟩ 100 100) 20 19 ∧
    (0 ≤ (20 : ℚ) ∧ (20 : ℚ) ≤ 100 ∧ 0 ≤ (19 : ℚ) ∧ (19 : ℚ) ≤ 100) := by
  have hfw : 0 < (expandBox ⟨10, 10, 20, 20⟩ 100 100).fw := by
    unfold expandBox
    norm_num
  have hfh : 0 < (expandBox ⟨10, 10, 20, 20⟩ 100 100).fh := by
    unfold expandBox
    norm_num
  have hin : insideEllipse (expandBox ⟨10, 10, 20, 20⟩ 100 100) 20 19 := by
    unfold insideEllipse expandBox
    norm_num
  exact ⟨hfw, hfh, hin,
    (expanded_box_within_canvas ⟨10, 10, 20, 20⟩ 100 100).2.2.2.2 hfw hfh 20 19 hin⟩

end FaceShield
